import Mathlib

/-!
# Verification of the Ebisuzaki phase-randomization significance test

This file is a shallow embedding of the function `ebisuzaki` from
`src/03_monte_carlo/correlation_and_monte_carlo.ipynb` together with proofs
about the claims of the specification.

Embedding conventions:

* Python floats are idealized as exact rationals `ℚ`; numpy complex values are
  idealized as Gaussian rationals `GQ` (pairs of rationals).
* `np.sqrt`-style square roots (inside `scipy.stats.zscore` and inside the
  magnitude `np.abs` of a complex array, and inside `np.corrcoef`) are modelled
  by `sqrtQ`, the exact nonnegative rational square root when it exists and `0`
  otherwise.  Concrete evaluations below are arranged so that every square root
  taken is exact.
* The numpy FFT primitives are external collaborators.  They are modelled by
  the textbook DFT matrix: `np.fft.fft` at length `n` is
  `X k = ∑ j, x j * w ^ (j * k)` with `w = exp (-2 * pi * I / n)`, and
  `np.fft.ifft` is `x j = n⁻¹ * ∑ k, X k * (conj w) ^ (j * k)`.  To stay
  computable the root `w` is passed explicitly; universal theorems hypothesize
  that `w` is a primitive `n`-th root of unity of norm `1`, which the true
  numpy root satisfies.
* The process-global numpy random generator is modelled by explicit state
  passing: a stream `ℕ → GQ` of draws.  A drawn uniform phase `phi` is only
  ever used through `exp (I * phi)`, so the stream directly carries the
  unit-circle value `exp (I * phi)`; negating a phase becomes complex
  conjugation.  `np.random.seed` replaces the stream: with an integer seed by
  a deterministic stream (`mtStream`, modelling the seeded Mersenne Twister),
  with `None` by a fresh-entropy stream carried in the ambient `World`.
* Python exceptions become `Except Err`; numpy broadcast errors, negative
  dimension errors and index errors are raised at the same program points as
  in the source.
-/

/-- Gaussian rationals: the computable model of numpy complex values. -/
@[ext]
structure GQ where
  re : ℚ
  im : ℚ
deriving DecidableEq, Repr

namespace GQ

def ofQ (a : ℚ) : GQ := ⟨a, 0⟩

instance : Zero GQ := ⟨⟨0, 0⟩⟩
instance : One GQ := ⟨⟨1, 0⟩⟩
instance : Add GQ := ⟨fun z u => ⟨z.re + u.re, z.im + u.im⟩⟩
instance : Neg GQ := ⟨fun z => ⟨-z.re, -z.im⟩⟩
instance : Mul GQ := ⟨fun z u => ⟨z.re * u.re - z.im * u.im, z.re * u.im + z.im * u.re⟩⟩

@[simp] theorem zero_re : (0 : GQ).re = 0 := rfl
@[simp] theorem zero_im : (0 : GQ).im = 0 := rfl
@[simp] theorem one_re : (1 : GQ).re = 1 := rfl
@[simp] theorem one_im : (1 : GQ).im = 0 := rfl
@[simp] theorem add_re (z u : GQ) : (z + u).re = z.re + u.re := rfl
@[simp] theorem add_im (z u : GQ) : (z + u).im = z.im + u.im := rfl
@[simp] theorem neg_re (z : GQ) : (-z).re = -z.re := rfl
@[simp] theorem neg_im (z : GQ) : (-z).im = -z.im := rfl
@[simp] theorem mul_re (z u : GQ) : (z * u).re = z.re * u.re - z.im * u.im := rfl
@[simp] theorem mul_im (z u : GQ) : (z * u).im = z.re * u.im + z.im * u.re := rfl
@[simp] theorem ofQ_re (a : ℚ) : (ofQ a).re = a := rfl
@[simp] theorem ofQ_im (a : ℚ) : (ofQ a).im = 0 := rfl

instance commRing : CommRing GQ where
  add_assoc := by intros; ext <;> simp <;> ring
  zero_add := by intros; ext <;> simp
  add_zero := by intros; ext <;> simp
  add_comm := by intros; ext <;> simp <;> ring
  neg_add_cancel := by intros; ext <;> simp
  mul_assoc := by intros; ext <;> simp <;> ring
  one_mul := by intros; ext <;> simp
  mul_one := by intros; ext <;> simp
  left_distrib := by intros; ext <;> simp <;> ring
  right_distrib := by intros; ext <;> simp <;> ring
  mul_comm := by intros; ext <;> simp <;> ring
  zero_mul := by intros; ext <;> simp
  mul_zero := by intros; ext <;> simp
  nsmul := fun n z => ⟨n * z.re, n * z.im⟩
  nsmul_zero := by intros; ext <;> simp
  nsmul_succ := by intros; ext <;> simp <;> ring
  zsmul := fun n z => ⟨n * z.re, n * z.im⟩
  zsmul_zero' := by intros; ext <;> simp
  zsmul_succ' := by intros; ext <;> push_cast <;> simp <;> ring
  zsmul_neg' := by intros; ext <;> push_cast <;> simp <;> ring

/-- Complex conjugation on Gaussian rationals. -/
def conj (z : GQ) : GQ := ⟨z.re, -z.im⟩

@[simp] theorem conj_re (z : GQ) : (conj z).re = z.re := rfl
@[simp] theorem conj_im (z : GQ) : (conj z).im = -z.im := rfl
@[simp] theorem conj_zero : conj 0 = 0 := by ext <;> simp
@[simp] theorem conj_one : conj 1 = 1 := by ext <;> simp
@[simp] theorem conj_conj (z : GQ) : conj (conj z) = z := by ext <;> simp
@[simp] theorem conj_mul (z u : GQ) : conj (z * u) = conj z * conj u := by
  ext <;> simp <;> ring
@[simp] theorem conj_add (z u : GQ) : conj (z + u) = conj z + conj u := by
  ext <;> simp <;> ring
@[simp] theorem conj_ofQ (a : ℚ) : conj (ofQ a) = ofQ a := by ext <;> simp

theorem conj_pow (z : GQ) (k : ℕ) : conj (z ^ k) = conj z ^ k := by
  induction k with
  | zero => simp
  | succ k ih => rw [pow_succ, pow_succ, conj_mul, ih]

/-- Squared modulus of a Gaussian rational. -/
def normSq (z : GQ) : ℚ := z.re * z.re + z.im * z.im

@[simp] theorem normSq_conj (z : GQ) : normSq (conj z) = normSq z := by
  simp [normSq]

theorem normSq_mul (z u : GQ) : normSq (z * u) = normSq z * normSq u := by
  simp [normSq]; ring

theorem normSq_nonneg (z : GQ) : 0 ≤ normSq z := by
  have h1 : 0 ≤ z.re * z.re := mul_self_nonneg _
  have h2 : 0 ≤ z.im * z.im := mul_self_nonneg _
  simpa [normSq] using add_nonneg h1 h2

theorem normSq_eq_zero_iff (z : GQ) : normSq z = 0 ↔ z = 0 := by
  constructor
  · intro h
    have h1 : 0 ≤ z.re * z.re := mul_self_nonneg _
    have h2 : 0 ≤ z.im * z.im := mul_self_nonneg _
    have hre : z.re * z.re = 0 := by
      have := (add_eq_zero_iff_of_nonneg h1 h2).mp h
      exact this.1
    have him : z.im * z.im = 0 := by
      have := (add_eq_zero_iff_of_nonneg h1 h2).mp h
      exact this.2
    ext
    · exact mul_self_eq_zero.mp hre
    · exact mul_self_eq_zero.mp him
  · rintro rfl; simp [normSq]

instance : NoZeroDivisors GQ := by
  refine ⟨fun {z u} h => ?_⟩
  have := congrArg normSq h
  rw [normSq_mul] at this
  have hz : normSq 0 = 0 := by simp [normSq]
  rw [hz] at this
  rcases mul_eq_zero.mp this with h1 | h1
  · exact Or.inl ((normSq_eq_zero_iff z).mp h1)
  · exact Or.inr ((normSq_eq_zero_iff u).mp h1)

theorem mul_conj_of_normSq_one {z : GQ} (h : normSq z = 1) : z * conj z = 1 := by
  ext
  · simpa [normSq] using h
  · simp; ring

theorem conj_mul_self_of_normSq_one {z : GQ} (h : normSq z = 1) : conj z * z = 1 := by
  rw [mul_comm]; exact mul_conj_of_normSq_one h

end GQ

/-! ## Rational square root model

`sqrtQ q` is the exact nonnegative square root of `q` when `q` is a square of
a rational, and `0` otherwise.  It models the floating point square root used
by `scipy.stats.zscore`, `np.abs` (complex magnitude) and `np.corrcoef`: all
concrete evaluations in this file only take exact square roots. -/

/-- Integer square root by structural countdown (kernel-reducible, unlike
the binary-search `Nat.sqrt`): the largest `k ≤ r` with `k * k ≤ n`. -/
def sqrtNatAux (n : ℕ) : ℕ → ℕ
  | 0 => 0
  | r + 1 => if (r + 1) * (r + 1) ≤ n then r + 1 else sqrtNatAux n r

def sqrtNatLin (n : ℕ) : ℕ := sqrtNatAux n n

theorem sqrtNatAux_sq (m : ℕ) : ∀ r, m ≤ r → sqrtNatAux (m * m) r = m := by
  intro r
  induction r with
  | zero =>
    intro hm
    interval_cases m
    rfl
  | succ r ih =>
    intro hm
    rcases Nat.lt_or_ge m (r + 1) with hlt | hge
    · have hmr : m ≤ r := Nat.lt_succ_iff.mp hlt
      have hbig : ¬ (r + 1) * (r + 1) ≤ m * m := by
        have h1 : m * m < (r + 1) * (r + 1) :=
          mul_lt_mul'' hlt hlt (Nat.zero_le m) (Nat.zero_le m)
        exact Nat.not_le.mpr h1
      simp only [sqrtNatAux, if_neg hbig]
      exact ih hmr
    · have hmeq : m = r + 1 := Nat.le_antisymm hm hge
      subst hmeq
      simp [sqrtNatAux]

theorem sqrtNatLin_sq (m : ℕ) : sqrtNatLin (m * m) = m := by
  unfold sqrtNatLin
  apply sqrtNatAux_sq
  rcases Nat.eq_zero_or_pos m with h | h
  · subst h; exact Nat.le_refl 0
  · calc m = m * 1 := (Nat.mul_one m).symm
      _ ≤ m * m := Nat.mul_le_mul_left m h

def sqrtQroot (q : ℚ) : ℚ := (sqrtNatLin q.num.toNat : ℚ) / (sqrtNatLin q.den : ℚ)

def sqrtQ (q : ℚ) : ℚ :=
  if q < 0 then 0
  else if sqrtQroot q * sqrtQroot q = q then sqrtQroot q else 0

theorem sqrtQroot_nonneg (q : ℚ) : 0 ≤ sqrtQroot q := by
  unfold sqrtQroot; positivity

theorem sqrtQ_nonneg (q : ℚ) : 0 ≤ sqrtQ q := by
  unfold sqrtQ
  split
  · exact le_refl 0
  · split
    · exact sqrtQroot_nonneg q
    · exact le_refl 0

/-- Either `sqrtQ q` squares back to `q`, or it is `0`. -/
theorem sqrtQ_spec (q : ℚ) : sqrtQ q * sqrtQ q = q ∨ sqrtQ q = 0 := by
  unfold sqrtQ
  split
  · exact Or.inr rfl
  · split
    · next h => exact Or.inl h
    · exact Or.inr rfl

theorem sqrtQ_mul_self (q : ℚ) (hq : 0 ≤ q) : sqrtQ (q * q) = q := by
  have hnum : (q * q).num = q.num * q.num := Rat.mul_self_num q
  have hden : (q * q).den = q.den * q.den := Rat.mul_self_den q
  have hqnum : 0 ≤ q.num := Rat.num_nonneg.mpr hq
  have hsq : 0 ≤ q * q := mul_nonneg hq hq
  have h1 : (q * q).num.toNat = q.num.toNat * q.num.toNat := by
    rcases Int.eq_ofNat_of_zero_le hqnum with ⟨a, ha⟩
    rw [hnum, ha]
    norm_cast
  have h2 : sqrtNatLin (q * q).num.toNat = q.num.toNat := by
    rw [h1, sqrtNatLin_sq]
  have h3 : sqrtNatLin (q * q).den = q.den := by
    rw [hden, sqrtNatLin_sq]
  have hc : sqrtQroot (q * q) = q := by
    unfold sqrtQroot
    rw [h2, h3]
    have hcast : (q.num.toNat : ℚ) = (q.num : ℚ) := by
      exact_mod_cast congrArg (fun z : ℤ => (z : ℚ)) (Int.toNat_of_nonneg hqnum)
    rw [hcast, Rat.num_div_den]
  unfold sqrtQ
  rw [if_neg (not_lt.mpr hsq), hc, if_pos (by ring)]

/-- Magnitude of a Gaussian rational (model of complex `np.abs`). -/
def magQ (z : GQ) : ℚ := sqrtQ (GQ.normSq z)

theorem magQ_nonneg (z : GQ) : 0 ≤ magQ z := sqrtQ_nonneg _

theorem magQ_conj (z : GQ) : magQ (GQ.conj z) = magQ z := by
  simp [magQ]

/-- Magnitude of `ofQ a * z` for unit `z` is `|a|`. -/
theorem magQ_ofQ_mul_unit (a : ℚ) {z : GQ} (hz : GQ.normSq z = 1) :
    magQ (GQ.ofQ a * z) = |a| := by
  have h : GQ.normSq (GQ.ofQ a * z) = a * a := by
    rw [GQ.normSq_mul, hz, mul_one]
    simp [GQ.normSq]
  rw [magQ, h, ← abs_mul_abs_self a]
  exact sqrtQ_mul_self |a| (abs_nonneg a)

/-! ## Numeric list helpers and statistical primitives -/

/-- Mean of a list of rationals (`np.mean`; division by zero yields `0`). -/
def meanQ (x : List ℚ) : ℚ := x.sum / (x.length : ℚ)

/-- `scipy.stats.zscore` with the default `ddof = 0`: subtract the mean and
divide by the population standard deviation. -/
def zscoreQ (x : List ℚ) : List ℚ :=
  let m := meanQ x
  let v := ((x.map fun t => (t - m) * (t - m)).sum) / (x.length : ℚ)
  let s := sqrtQ v
  x.map fun t => (t - m) / s

@[simp] theorem zscoreQ_length (x : List ℚ) : (zscoreQ x).length = x.length := by
  simp [zscoreQ]

/-- Pearson correlation coefficient `np.corrcoef(a, b)[0, 1]`: center both
series, then covariance over the product of standard deviations (the
`1 / (n - 1)` factors cancel). -/
def corrQ (a b : List ℚ) : ℚ :=
  (List.zipWith (· * ·) (a.map fun t => t - meanQ a)
      (b.map fun t => t - meanQ b)).sum /
    sqrtQ (((a.map fun t => t - meanQ a).map fun t => t * t).sum *
      ((b.map fun t => t - meanQ b).map fun t => t * t).sum)

/-- Ascending sort (`np.sort`). -/
def sortAsc (l : List ℚ) : List ℚ := l.insertionSort (· ≤ ·)

/-- Python `int()` applied to a rational: truncation toward zero. -/
def pyInt (q : ℚ) : ℤ := if q < 0 then -⌊-q⌋ else ⌊q⌋

/-- Error taxonomy.  `shapeMismatch` is the `ValueError` raised by the length
check in the source; `negativeDimension`, `broadcastMismatch` and
`indexOutOfBounds` are the errors numpy raises at the corresponding call
sites.  `invalidParameter` appears in the specification's taxonomy and is
included so that statements about it can be expressed; the source never
raises it. -/
inductive Err where
  | shapeMismatch
  | invalidParameter
  | negativeDimension
  | broadcastMismatch
  | indexOutOfBounds
deriving DecidableEq, Repr

/-- Python/numpy 1-d array indexing with an integer index: negative indices
wrap once; anything still out of range raises `IndexError`. -/
def pyIndex (l : List ℚ) (i : ℤ) : Except Err ℚ :=
  let j := if i < 0 then i + l.length else i
  if 0 ≤ j ∧ j < (l.length : ℤ) then .ok (l.getD j.toNat 0) else .error .indexOutOfBounds

/-! ## The discrete Fourier transform model -/

/-- `np.fft.fft` modelled as the DFT matrix with explicitly passed root `w`
(standing for `exp (-2 * pi * I / n)`). -/
def dft (w : GQ) (x : List GQ) : List GQ :=
  (List.range x.length).map fun k =>
    ∑ j in Finset.range x.length, x.getD j 0 * w ^ (j * k)

/-- `np.fft.ifft` modelled as the inverse DFT matrix: root `conj w` and
normalization `1 / n`. -/
def idft (w : GQ) (x : List GQ) : List GQ :=
  (List.range x.length).map fun j =>
    GQ.ofQ (((x.length : ℚ))⁻¹) *
      ∑ k in Finset.range x.length, x.getD k 0 * (GQ.conj w) ^ (j * k)

@[simp] theorem dft_length (w : GQ) (x : List GQ) : (dft w x).length = x.length := by
  simp [dft]

@[simp] theorem idft_length (w : GQ) (x : List GQ) : (idft w x).length = x.length := by
  simp [idft]

theorem dft_getD (w : GQ) (x : List GQ) {k : ℕ} (hk : k < x.length) :
    (dft w x).getD k 0 = ∑ j in Finset.range x.length, x.getD j 0 * w ^ (j * k) := by
  unfold dft
  rw [List.getD_eq_getElem?_getD, List.getElem?_map]
  simp [List.getElem?_range, hk]

theorem idft_getD (w : GQ) (x : List GQ) {j : ℕ} (hj : j < x.length) :
    (idft w x).getD j 0 =
      GQ.ofQ (((x.length : ℚ))⁻¹) *
        ∑ k in Finset.range x.length, x.getD k 0 * (GQ.conj w) ^ (j * k) := by
  unfold idft
  rw [List.getD_eq_getElem?_getD, List.getElem?_map]
  simp [List.getElem?_range, hj]

/-! ## The phase-randomization pipeline -/

/-- The full symmetric phase array construction of the source, at the level of
phases:
`np.concatenate(([0], phases, [0], -phases[::-1]))` for even `n` and
`np.concatenate(([0], phases, -phases[::-1]))` for odd `n`. -/
def phasesFull (n : ℕ) (ps : List ℚ) : List ℚ :=
  if n % 2 = 0 then [0] ++ ps ++ [0] ++ (ps.reverse.map fun t => -t)
  else [0] ++ ps ++ (ps.reverse.map fun t => -t)

/-- The same construction at the level of unit-circle values
(`exp (1j * phasesFull)` computed pointwise): phase `0` becomes `1` and
negation becomes conjugation. -/
def cisFull (n : ℕ) (zs : List GQ) : List GQ :=
  if n % 2 = 0 then [1] ++ zs ++ [1] ++ (zs.reverse.map GQ.conj)
  else [1] ++ zs ++ (zs.reverse.map GQ.conj)

/-- Justification of the `cisFull` modelling: for any exponential-like map
`f` (`f 0 = 1` and `f (-t) = conj (f t)`), mapping `f` over the source's
phase array gives exactly `cisFull` of the mapped free phases. -/
theorem cisFull_eq_map_phasesFull (f : ℚ → GQ) (hf0 : f 0 = 1)
    (hfneg : ∀ t, f (-t) = GQ.conj (f t)) (n : ℕ) (ps : List ℚ) :
    (phasesFull n ps).map f = cisFull n (ps.map f) := by
  have hrev : ((ps.reverse.map fun t => -t).map f) = (ps.map f).reverse.map GQ.conj := by
    rw [List.map_map, ← List.map_reverse, List.map_map]
    apply List.map_congr_left
    intro t _
    exact hfneg t
  unfold phasesFull cisFull
  split <;> simp only [List.map_append, List.map_cons, List.map_nil, hf0, hrev]

/-- numpy elementwise multiplication of a real array (the magnitudes) with a
complex array (the unit phases), including 1-d broadcasting: equal lengths
multiply pointwise, a length-1 operand is broadcast, anything else raises a
broadcast `ValueError`. -/
def broadcastMul (mod : List ℚ) (cis : List GQ) : Except Err (List GQ) :=
  if mod.length = cis.length then
    .ok (List.zipWith (fun m z => GQ.ofQ m * z) mod cis)
  else if cis.length = 1 then
    .ok (mod.map fun m => GQ.ofQ m * cis.getD 0 1)
  else if mod.length = 1 then
    .ok (cis.map fun z => GQ.ofQ (mod.getD 0 0) * z)
  else .error .broadcastMismatch

/-- One surrogate series: complex spectrum `mod * exp(1j * phases_full)`,
inverse FFT, real part.  This is the loop body of the source for one of the
two series. -/
def surrogateColumn (w : GQ) (n : ℕ) (mod : List ℚ) (zs : List GQ) :
    Except Err (List ℚ) :=
  (broadcastMul mod (cisFull n zs)).map fun S => (idft w S).map GQ.re

/-- Draws consumed by `np.random.uniform(-pi, pi, n2 - 1)`: the unit-circle
values of the `n2 - 1` random phases.  In Python `n2 - 1` is `-1` when
`n2 = 0` and numpy raises a negative-dimension `ValueError`. -/
def drawPair (w : GQ) (st : ℕ → GQ) (n n2 : ℕ) (modx mody : List ℚ) (i : ℕ) :
    Except Err (List ℚ × List ℚ) :=
  if n2 = 0 then .error .negativeDimension
  else
    let k := n2 - 1
    let zsx := (List.range k).map fun j => st (2 * k * i + j)
    let zsy := (List.range k).map fun j => st (2 * k * i + k + j)
    do
      let sx ← surrogateColumn w n modx zsx
      let sy ← surrogateColumn w n mody zsy
      pure (sx, sy)

/-- Run a fallible computation over a list, collecting the results and
aborting at the first raised error — the semantics of the Python `for` loop
filling the surrogate arrays. -/
def collectE {α β : Type} (f : α → Except Err β) : List α → Except Err (List β)
  | [] => .ok []
  | a :: as => do
      let b ← f a
      let bs ← collectE f as
      pure (b :: bs)

theorem collectE_ok_length {α β : Type} (f : α → Except Err β) :
    ∀ {l : List α} {r : List β}, collectE f l = .ok r → r.length = l.length := by
  intro l
  induction l with
  | nil => intro r h; simp [collectE] at h; simp [← h]
  | cons a as ih =>
    intro r h
    simp only [collectE, bind, Except.bind] at h
    cases hfa : f a with
    | error e => rw [hfa] at h; simp at h
    | ok b =>
      rw [hfa] at h
      cases hrec : collectE f as with
      | error e => rw [hrec] at h; simp at h
      | ok bs =>
        rw [hrec] at h
        simp only [pure, Except.pure, Except.ok.injEq] at h
        rw [← h]
        simp [ih hrec]

theorem collectE_ok_mem {α β : Type} (f : α → Except Err β) :
    ∀ {l : List α} {r : List β}, collectE f l = .ok r →
      ∀ b ∈ r, ∃ a ∈ l, f a = .ok b := by
  intro l
  induction l with
  | nil => intro r h; simp [collectE] at h; subst h; simp
  | cons a as ih =>
    intro r h
    simp only [collectE, bind, Except.bind] at h
    cases hfa : f a with
    | error e => rw [hfa] at h; simp at h
    | ok b =>
      rw [hfa] at h
      cases hrec : collectE f as with
      | error e => rw [hrec] at h; simp at h
      | ok bs =>
        rw [hrec] at h
        simp only [pure, Except.pure, Except.ok.injEq] at h
        intro c hc
        rw [← h] at hc
        rcases List.mem_cons.mp hc with hc | hc
        · exact ⟨a, List.mem_cons_self a as, by rw [hfa, hc]⟩
        · rcases ih hrec c hc with ⟨a', ha', hfa'⟩
          exact ⟨a', List.mem_cons_of_mem a ha', hfa'⟩

/-- The values returned by `ebisuzaki`: `return F, rSim, r_real`. -/
structure EbResult where
  F : ℚ
  rSim : List ℚ
  r_real : ℚ
deriving DecidableEq, Repr

/-- Draws consumed before the loop aborts with an error: a failing iteration
fails either at the `np.random.uniform` call itself (`n2 = 0`, nothing
consumed) or at the broadcast multiply (both `uniform` calls already ran). -/
def consumedErr (n2 : ℕ) : ℕ := if n2 = 0 then 0 else 2 * (n2 - 1)

/-- The body of `ebisuzaki` after the global generator has been re-seeded.
Takes the current stream of random draws, returns the advanced stream, the
list of printed values (`r_real`, critical value, `F` — in print order) and
either an error or the returned triple. -/
def ebisuzakiCore (w : GQ) (st : ℕ → GQ) (x y : List ℚ) (level : ℚ)
    (nsim : ℤ) : (ℕ → GQ) × List ℚ × Except Err EbResult :=
  let x' := zscoreQ x
  let y' := zscoreQ y
  if x'.length ≠ y'.length then (st, [], .error .shapeMismatch)
  else
    let n := x'.length
    let n2 := n / 2
    let r_real := corrQ x' y'
    let modx := (dft w (x'.map GQ.ofQ)).map magQ
    let mody := (dft w (y'.map GQ.ofQ)).map magQ
    if nsim < 0 then (st, [], .error .negativeDimension)
    else
      match collectE (drawPair w st n n2 modx mody) (List.range nsim.toNat) with
      | .error e => (fun j => st (j + consumedErr n2), [], .error e)
      | .ok cols =>
        let st' := fun j => st (j + nsim.toNat * (2 * (n2 - 1)))
        let rSim := cols.map fun p => corrQ (zscoreQ p.1) (zscoreQ p.2)
        let F := ((rSim.countP fun t => decide (|r_real| < |t|) : ℕ) : ℚ) / (nsim : ℚ)
        let sorted := sortAsc (rSim.map fun t => |t|)
        match pyIndex sorted (pyInt ((nsim : ℚ) * (1 - level))) with
        | .error e => (st', [], .error e)
        | .ok cv => (st', [r_real, cv, F], .ok ⟨F, rSim, r_real⟩)

/-- A rational point on the unit circle, via the tangent half-angle map. -/
def unitOfTan (t : ℚ) : GQ := ⟨(1 - t * t) / (1 + t * t), 2 * t / (1 + t * t)⟩

theorem normSq_unitOfTan (t : ℚ) : GQ.normSq (unitOfTan t) = 1 := by
  have hpos : (0 : ℚ) < 1 + t * t := by nlinarith [mul_self_nonneg t]
  have h : (1 : ℚ) + t * t ≠ 0 := ne_of_gt hpos
  unfold unitOfTan GQ.normSq
  field_simp
  ring

/-- Modelled from the spec: the stream of draws numpy's process-global
Mersenne Twister produces after `np.random.seed(s)` — a deterministic stream
per seed, each draw represented by its unit-circle value. -/
def mtStream (s : ℤ) : ℕ → GQ := fun i => unitOfTan ((s : ℚ) + (i : ℚ))

/-- The ambient state of the process-global numpy random generator:
`current` is the stream of upcoming draws, `entropy` is the fresh stream the
OS would provide on `np.random.seed(None)`. -/
structure World where
  current : ℕ → GQ
  entropy : ℕ → GQ

/-- Effect of the `np.random.seed(...)` call that opens `ebisuzaki`:
an integer seed installs the deterministic seeded stream, `None` re-seeds
from fresh entropy. -/
def npSeedStream (seed : Option ℤ) (σ : World) : ℕ → GQ :=
  match seed with
  | some s => mtStream s
  | none => σ.entropy

/-- The full `ebisuzaki(x, y, level, nsim, seed)` call: re-seed the global
generator, then run the body.  Returns the final generator state, the printed
values and the returned triple (or the raised error). -/
def ebisuzaki (w : GQ) (σ : World) (x y : List ℚ) (level : ℚ) (nsim : ℤ)
    (seed : Option ℤ) : World × List ℚ × Except Err EbResult :=
  let st := npSeedStream seed σ
  let out := ebisuzakiCore w st x y level nsim
  (⟨out.1, σ.entropy⟩, out.2.1, out.2.2)

/-! ## Path lemmas -/

theorem ebisuzakiCore_shapeMismatch (w : GQ) (st : ℕ → GQ) {x y : List ℚ}
    (level : ℚ) (nsim : ℤ) (hne : x.length ≠ y.length) :
    ebisuzakiCore w st x y level nsim = (st, [], .error .shapeMismatch) := by
  simp only [ebisuzakiCore, zscoreQ_length]
  rw [if_pos hne]

theorem ebisuzaki_shapeMismatch (w : GQ) (σ : World) {x y : List ℚ}
    (level : ℚ) (nsim : ℤ) (seed : Option ℤ) (hne : x.length ≠ y.length) :
    ebisuzaki w σ x y level nsim seed =
      (⟨npSeedStream seed σ, σ.entropy⟩, [], .error .shapeMismatch) := by
  show ((World.mk (ebisuzakiCore w (npSeedStream seed σ) x y level nsim).1 σ.entropy,
      (ebisuzakiCore w (npSeedStream seed σ) x y level nsim).2.1,
      (ebisuzakiCore w (npSeedStream seed σ) x y level nsim).2.2) : World × List ℚ × Except Err EbResult) =
    (World.mk (npSeedStream seed σ) σ.entropy, [], .error .shapeMismatch)
  rw [ebisuzakiCore_shapeMismatch w (npSeedStream seed σ) level nsim hne]

/-- Inversion of a successful run: a returned result determines every
intermediate value of the pipeline. -/
theorem ebisuzakiCore_ok_inv {w : GQ} {st : ℕ → GQ} {x y : List ℚ} {level : ℚ}
    {nsim : ℤ} {p : List ℚ} {res : EbResult}
    (h : (ebisuzakiCore w st x y level nsim).2 = (p, .ok res)) :
    ¬ nsim < 0 ∧
    ∃ cols cv,
      collectE (drawPair w st (zscoreQ x).length ((zscoreQ x).length / 2)
          ((dft w ((zscoreQ x).map GQ.ofQ)).map magQ)
          ((dft w ((zscoreQ y).map GQ.ofQ)).map magQ))
        (List.range nsim.toNat) = .ok cols ∧
      res.r_real = corrQ (zscoreQ x) (zscoreQ y) ∧
      res.rSim = cols.map (fun q => corrQ (zscoreQ q.1) (zscoreQ q.2)) ∧
      res.F = ((res.rSim.countP fun t => decide (|res.r_real| < |t|) : ℕ) : ℚ) / (nsim : ℚ) ∧
      pyIndex (sortAsc (res.rSim.map fun t => |t|))
        (pyInt ((nsim : ℚ) * (1 - level))) = .ok cv ∧
      p = [res.r_real, cv, res.F] := by
  simp only [ebisuzakiCore] at h
  split at h
  · simp at h
  · split at h
    · simp at h
    · next hns =>
      split at h
      · simp at h
      · next cols hcols =>
        split at h
        · simp at h
        · next cv hcv =>
          simp only [Prod.mk.injEq, Except.ok.injEq] at h
          obtain ⟨hp, hres⟩ := h
          refine ⟨hns, cols, cv, hcols, ?_, ?_, ?_, ?_, ?_⟩
          · rw [← hres]
          · rw [← hres]
          · rw [← hres]
          · rw [← hres]
            exact hcv
          · rw [← hres, ← hp]

theorem ebisuzakiCore_nsim_zero (w : GQ) (st : ℕ → GQ) {x y : List ℚ}
    (level : ℚ) (heq : x.length = y.length) :
    (ebisuzakiCore w st x y level 0).2.2 = .error .indexOutOfBounds := by
  simp only [ebisuzakiCore, zscoreQ_length, heq]
  rw [if_neg (by simp)]
  rw [if_neg (by norm_num)]
  simp [collectE, sortAsc, pyInt, pyIndex]

theorem ebisuzakiCore_nsim_neg (w : GQ) (st : ℕ → GQ) {x y : List ℚ}
    (level : ℚ) {nsim : ℤ} (heq : x.length = y.length) (hns : nsim < 0) :
    (ebisuzakiCore w st x y level nsim).2.2 = .error .negativeDimension := by
  simp only [ebisuzakiCore, zscoreQ_length, heq]
  rw [if_neg (by simp)]
  rw [if_pos hns]

/-! ## Concrete fixtures for witnesses and counterexamples

`w4 = -I` is the exact numpy FFT root `exp (-2 * pi * I / 4)` for length-4
inputs.  `pythagVec` is a length-4 series that is already standardized
(mean `0`, population variance `1`) and whose DFT magnitudes
`[0, 8/3, 4/3, 8/3]` are all rational, so the whole pipeline evaluates
exactly.  `worldCex` is an ambient generator state whose entropy stream
yields the unit values `1 = exp (0 * I)` and `-1 = exp (pi * I)`. -/

def w4 : GQ := ⟨0, -1⟩

def pythagVec : List ℚ := [17/15, -7/5, -7/15, 11/15]

def world1 : World := ⟨fun _ => 1, fun _ => 1⟩

def worldCex : World := ⟨fun _ => 1, fun i => if i = 0 then 1 else ⟨-1, 0⟩⟩

/-! ## Claim theorems -/

/-- Claim C5: determinism under a fixed seed, as a two-run statement — for a
fixed integer seed, two invocations with identical `x`, `y`, `nsim`, `level`
but arbitrary (possibly different) prior global generator states produce
identical printed values and an identical returned triple: the same
`r_real`, the same surrogate correlation array element for element, and the
same p-value. -/
theorem claim_C5_seed_determinism (w : GQ) (σ₁ σ₂ : World) (x y : List ℚ)
    (level : ℚ) (nsim : ℤ) (s : ℤ) :
    (ebisuzaki w σ₁ x y level nsim (some s)).2 =
      (ebisuzaki w σ₂ x y level nsim (some s)).2 := rfl

/-- Claim C7: whenever `x` and `y` have different lengths, the call fails
immediately with the shape-mismatch `ValueError`: nothing is printed and no
result is returned, for every generator state, seed, level and `nsim`. -/
theorem claim_C7_shape_mismatch (w : GQ) (σ : World) (x y : List ℚ)
    (level : ℚ) (nsim : ℤ) (seed : Option ℤ) (hne : x.length ≠ y.length) :
    (ebisuzaki w σ x y level nsim seed).2 = ([], .error .shapeMismatch) := by
  rw [ebisuzaki_shapeMismatch w σ level nsim seed hne]

theorem claim_C7_shape_mismatch_witness :
    ([1, 2] : List ℚ).length ≠ ([3] : List ℚ).length ∧
      (ebisuzaki w4 world1 [1, 2] [3] (1/20) 5 none).2 =
        ([], .error .shapeMismatch) :=
  ⟨by decide, claim_C7_shape_mismatch w4 world1 [1, 2] [3] (1/20) 5 none (by decide)⟩

/-- Claim C10: the process-global generator is re-seeded (from the supplied
seed, or from fresh entropy when the seed is `None`) before the input-length
validation runs: a call that fails with the shape-mismatch error nevertheless
leaves the generator in the freshly re-seeded state, independent of the prior
state — the error path is not atomic with respect to generator state. -/
theorem claim_C10_reseed_before_validation (w : GQ) (σ : World) (x y : List ℚ)
    (level : ℚ) (nsim : ℤ) (seed : Option ℤ) (hne : x.length ≠ y.length) :
    ebisuzaki w σ x y level nsim seed =
      (⟨npSeedStream seed σ, σ.entropy⟩, [], .error .shapeMismatch) :=
  ebisuzaki_shapeMismatch w σ level nsim seed hne

theorem claim_C10_reseed_before_validation_witness :
    (([0] : List ℚ).length ≠ ([0, 1] : List ℚ).length ∧
      ebisuzaki w4 world1 [0] [0, 1] (1/20) 3 (some 7) =
        (⟨npSeedStream (some 7) world1, world1.entropy⟩, [], .error .shapeMismatch)) ∧
      npSeedStream (some 7) world1 0 ≠ world1.current 0 :=
  ⟨⟨by decide,
      claim_C10_reseed_before_validation w4 world1 [0] [0, 1] (1/20) 3 (some 7)
        (by decide)⟩,
    by
      intro h
      have him := congrArg GQ.im h
      simp [npSeedStream, mtStream, unitOfTan, world1] at him
      norm_num at him⟩

deriving instance DecidableEq for Except

set_option maxRecDepth 10000

/-- The specification's description of the critical value: "sort the absolute
surrogate correlations ascending; the critical value is the value at
percentile rank (1 − level) of that sorted sequence". -/
def cvSpec (rSim : List ℚ) (level : ℚ) (nsim : ℤ) : ℚ :=
  (sortAsc (rSim.map fun t => |t|)).getD (⌊(nsim : ℚ) * (1 - level)⌋).toNat 0

theorem pyInt_of_nonneg {q : ℚ} (h : 0 ≤ q) : pyInt q = ⌊q⌋ := by
  unfold pyInt
  rw [if_neg (not_lt.mpr h)]

theorem pyIndex_ok {l : List ℚ} {i : ℤ} (h0 : 0 ≤ i) (hl : i < (l.length : ℤ)) :
    pyIndex l i = .ok (l.getD i.toNat 0) := by
  unfold pyIndex
  rw [if_neg (not_lt.mpr h0)]
  rw [if_pos ⟨h0, hl⟩]

unseal Rat.inv Rat.mul Rat.add Rat.sub in
/-- Claim C1 (failing evaluation for the code bug): for the odd length
N = 5 the source's parity branch builds a symmetric phase array of length
N − 2 = 3 (one free phase for bins 1..floor(N/2)−1, one zero for bin 0 and one
mirrored phase) instead of a valid length-5 Hermitian-symmetric array, and the
multiply of the length-5 magnitude array by the length-3 phase factor raises a
numpy broadcast error, so the call aborts and no surrogate is generated. -/
theorem claim_C1_odd_phase_array_broken :
    (phasesFull 5 [1/2]).length = 3 ∧ ¬ (phasesFull 5 [1/2]).length = 5 ∧
      (ebisuzaki w4 world1 [1, -1, 1, -1, 0] [1, -1, 1, -1, 0] (1/20) 1 none).2.2 =
        .error .broadcastMismatch := by
  refine ⟨by decide, by decide, by decide⟩

unseal Rat.inv Rat.mul Rat.add Rat.sub in
/-- Claim C3 counterexample: with `nsim = 0`, valid equal-length inputs and a
valid `level`, the call does not fail with an `InvalidParameter` error before
the surrogate stage — it runs the (empty) surrogate loop and then fails with
an `IndexError` at the critical-value lookup. -/
theorem claim_C3_no_validation_counterexample :
    (ebisuzaki w4 world1 [1, -1, 1, -1] [1, -1, 1, -1] (1/20) 0 none).2.2 =
        .error .indexOutOfBounds ∧
      ¬ (ebisuzaki w4 world1 [1, -1, 1, -1] [1, -1, 1, -1] (1/20) 0 none).2.2 =
        .error .invalidParameter := by
  refine ⟨by decide, by decide⟩

/-- Claim C3 (amended): the function performs no validation of `nsim` or
`level` and never raises `InvalidParameter`.  For equal-length inputs,
`nsim = 0` proceeds through seeding, standardization, spectral analysis and
the empty surrogate loop, then fails with an index error at the
critical-value lookup; `nsim < 0` fails with numpy's negative-dimension error
when the surrogate arrays are allocated.  Neither failure is an immediate
parameter check. -/
theorem claim_C3_no_parameter_validation (w : GQ) (σ : World) (x y : List ℚ)
    (level : ℚ) (nsim : ℤ) (seed : Option ℤ) (heq : x.length = y.length) :
    (nsim = 0 →
      (ebisuzaki w σ x y level nsim seed).2.2 = .error .indexOutOfBounds) ∧
    (nsim < 0 →
      (ebisuzaki w σ x y level nsim seed).2.2 = .error .negativeDimension) := by
  constructor
  · rintro rfl
    exact ebisuzakiCore_nsim_zero w (npSeedStream seed σ) level heq
  · intro hns
    exact ebisuzakiCore_nsim_neg w (npSeedStream seed σ) level heq hns

theorem claim_C3_no_parameter_validation_witness :
    ([2, 3] : List ℚ).length = ([4, 5] : List ℚ).length ∧
      (ebisuzaki w4 world1 [2, 3] [4, 5] (1/10) 0 (some 1)).2.2 =
        .error .indexOutOfBounds :=
  ⟨rfl,
    (claim_C3_no_parameter_validation w4 world1 [2, 3] [4, 5] (1/10) 0 (some 1)
        rfl).1 rfl⟩

/-- Claim C2 (amended): on every successful call with `nsim > 0` and `level`
in (0,1), the critical correlation magnitude is computed exactly as the
specification describes — sort the absolute surrogate correlations ascending
and take the value at index `int(nsim * (1 − level))`, the percentile rank
`(1 − level)` — but it is only printed (as the second printed value, between
`r_real` and `F`); the function returns the triple `F`, `rSim`, `r_real`, and
the critical value is not among the returned values (see the
counterexample). -/
theorem claim_C2_critical_value_printed (w : GQ) (σ : World) (x y : List ℚ)
    (level : ℚ) (nsim : ℤ) (seed : Option ℤ) (p : List ℚ) (res : EbResult)
    (hns : 0 < nsim) (hl0 : 0 < level) (hl1 : level < 1)
    (h : (ebisuzaki w σ x y level nsim seed).2 = (p, .ok res)) :
    p = [res.r_real, cvSpec res.rSim level nsim, res.F] := by
  have hcore : (ebisuzakiCore w (npSeedStream seed σ) x y level nsim).2 =
      (p, .ok res) := h
  obtain ⟨-, cols, cv, hcols, -, hrSim, -, hcv, hp⟩ := ebisuzakiCore_ok_inv hcore
  have hlen : res.rSim.length = nsim.toNat := by
    rw [hrSim, List.length_map, collectE_ok_length _ hcols, List.length_range]
  have hnsq : (0 : ℚ) < (nsim : ℚ) := by exact_mod_cast hns
  have harg : (0 : ℚ) ≤ (nsim : ℚ) * (1 - level) := by
    have : (0 : ℚ) ≤ 1 - level := by linarith
    positivity
  have hidx0 : 0 ≤ ⌊(nsim : ℚ) * (1 - level)⌋ := Int.floor_nonneg.mpr harg
  have hsortlen : (sortAsc (res.rSim.map fun t => |t|)).length = nsim.toNat := by
    unfold sortAsc
    rw [List.length_insertionSort, List.length_map, hlen]
  have hidxlt : ⌊(nsim : ℚ) * (1 - level)⌋ <
      ((sortAsc (res.rSim.map fun t => |t|)).length : ℤ) := by
    rw [hsortlen]
    have hlt : (nsim : ℚ) * (1 - level) < (nsim : ℚ) := by
      nlinarith
    have h2 : ⌊(nsim : ℚ) * (1 - level)⌋ < nsim := by
      rw [Int.floor_lt]
      exact_mod_cast hlt
    rwa [Int.toNat_of_nonneg (le_of_lt hns)]
  rw [pyInt_of_nonneg harg, pyIndex_ok hidx0 hidxlt] at hcv
  have hcveq : cv = cvSpec res.rSim level nsim := by
    unfold cvSpec
    exact (Except.ok.injEq _ _ ▸ congrArg (fun e => e) hcv) ▸ rfl
  rw [hp, hcveq]

unseal Rat.inv Rat.mul Rat.add Rat.sub in
/-- Claim C2 counterexample: a concrete successful call on which the critical
value — duly computed by the sort-and-index rule and printed — is `7/9`, while
the values actually returned to the caller are `F = 0`, `rSim = [-7/9]` and
`r_real = 1`: the critical value is not among the returned values, refuting
"returns this critical value to the caller". -/
theorem claim_C2_cv_not_returned_counterexample :
    (ebisuzaki w4 worldCex pythagVec pythagVec (1/2) 1 none).2 =
        ([1, cvSpec [-7/9] (1/2) 1, 0], .ok ⟨0, [-7/9], 1⟩) ∧
      cvSpec [-7/9] (1/2) 1 = 7/9 ∧
      (7 : ℚ)/9 ≠ 0 ∧ (7 : ℚ)/9 ≠ 1 ∧ ¬ ((7 : ℚ)/9 ∈ ([-7/9] : List ℚ)) := by
  refine ⟨by decide, by decide, by decide, by decide, by decide⟩

unseal Rat.inv Rat.mul Rat.add Rat.sub in
theorem claim_C2_critical_value_printed_witness :
    ((0 : ℤ) < 1 ∧ (0 : ℚ) < 1/2 ∧ (1 : ℚ)/2 < 1) ∧
      ([1, 7/9, 0] : List ℚ) = [(1 : ℚ), cvSpec [-7/9] (1/2) 1, 0] :=
  ⟨⟨by norm_num, by norm_num, by norm_num⟩,
    claim_C2_critical_value_printed w4 worldCex pythagVec pythagVec (1/2) 1 none
      [1, 7/9, 0] ⟨0, [-7/9], 1⟩ (by norm_num) (by norm_num) (by norm_num)
      (by decide)⟩

/-! ## Cauchy-Schwarz for the correlation bound -/

theorem list_map_sum_eq_finset (l : List ℚ) (f : ℚ → ℚ) :
    (l.map f).sum = ∑ i in Finset.range l.length, f (l.getD i 0) := by
  induction l with
  | nil => simp
  | cons x xs ih =>
    rw [List.map_cons, List.sum_cons, List.length_cons, Finset.sum_range_succ']
    simp only [List.getD_cons_succ, List.getD_cons_zero]
    rw [ih]
    ring

theorem list_zipWith_mul_sum_eq_finset (a b : List ℚ) :
    (List.zipWith (· * ·) a b).sum =
      ∑ i in Finset.range (min a.length b.length), a.getD i 0 * b.getD i 0 := by
  induction a generalizing b with
  | nil => simp
  | cons x xs ih =>
    cases b with
    | nil => simp
    | cons y ys =>
      rw [List.zipWith_cons_cons, List.sum_cons, List.length_cons,
        List.length_cons, Nat.succ_min_succ, Finset.sum_range_succ']
      simp only [List.getD_cons_succ, List.getD_cons_zero]
      rw [ih ys]
      ring

theorem list_sum_sq_nonneg (l : List ℚ) : 0 ≤ (l.map fun t => t * t).sum := by
  apply List.sum_nonneg
  intro x hx
  rcases List.mem_map.mp hx with ⟨t, _, rfl⟩
  exact mul_self_nonneg t

theorem list_sum_sq_prefix_le (l : List ℚ) {k : ℕ} (hk : k ≤ l.length) :
    ∑ i in Finset.range k, l.getD i 0 * l.getD i 0 ≤ (l.map fun t => t * t).sum := by
  rw [list_map_sum_eq_finset]
  apply Finset.sum_le_sum_of_subset_of_nonneg (Finset.range_subset.mpr hk)
  intro i _ _
  exact mul_self_nonneg _

/-- Cauchy-Schwarz for lists, with the zip truncated at the shorter length
and the squared sums over the full lists. -/
theorem list_cauchy_schwarz (a b : List ℚ) :
    (List.zipWith (· * ·) a b).sum ^ 2 ≤
      (a.map fun t => t * t).sum * (b.map fun t => t * t).sum := by
  rw [list_zipWith_mul_sum_eq_finset]
  have hcs := Finset.sum_mul_sq_le_sq_mul_sq (Finset.range (min a.length b.length))
    (fun i => a.getD i 0) (fun i => b.getD i 0)
  refine le_trans hcs ?_
  have ha := list_sum_sq_prefix_le a (Nat.min_le_left a.length b.length)
  have hb := list_sum_sq_prefix_le b (Nat.min_le_right a.length b.length)
  have ha0 : 0 ≤ ∑ i in Finset.range (min a.length b.length), a.getD i 0 ^ 2 := by
    apply Finset.sum_nonneg; intro i _; exact sq_nonneg _
  have hb0 : 0 ≤ ∑ i in Finset.range (min a.length b.length), b.getD i 0 ^ 2 := by
    apply Finset.sum_nonneg; intro i _; exact sq_nonneg _
  have ha' : ∑ i in Finset.range (min a.length b.length), a.getD i 0 ^ 2 ≤
      (a.map fun t => t * t).sum := by
    refine le_trans (le_of_eq ?_) ha
    apply Finset.sum_congr rfl; intro i _; rw [sq]
  have hb' : ∑ i in Finset.range (min a.length b.length), b.getD i 0 ^ 2 ≤
      (b.map fun t => t * t).sum := by
    refine le_trans (le_of_eq ?_) hb
    apply Finset.sum_congr rfl; intro i _; rw [sq]
  exact mul_le_mul ha' hb' hb0 (le_trans ha0 ha')

/-- The Pearson correlation of any two rational lists lies in [-1, 1] in this
embedding: either the standard-deviation product is an exact square and
Cauchy-Schwarz bounds the quotient, or the model square root is 0 and the
division-by-zero convention yields 0. -/
theorem corrQ_abs_le_one (a b : List ℚ) : |corrQ a b| ≤ 1 := by
  unfold corrQ
  rcases sqrtQ_spec (((a.map fun t => t - meanQ a).map fun t => t * t).sum *
      ((b.map fun t => t - meanQ b).map fun t => t * t).sum) with hs | hs
  · by_cases h0 : sqrtQ (((a.map fun t => t - meanQ a).map fun t => t * t).sum *
        ((b.map fun t => t - meanQ b).map fun t => t * t).sum) = 0
    · rw [h0, div_zero]
      norm_num
    · have hpos : 0 < sqrtQ (((a.map fun t => t - meanQ a).map fun t => t * t).sum *
          ((b.map fun t => t - meanQ b).map fun t => t * t).sum) :=
        lt_of_le_of_ne (sqrtQ_nonneg _) (Ne.symm h0)
      have hcs := list_cauchy_schwarz (a.map fun t => t - meanQ a)
        (b.map fun t => t - meanQ b)
      rw [abs_div, div_le_one (lt_of_lt_of_le hpos (le_abs_self _))]
      have hsq2 : sqrtQ (((a.map fun t => t - meanQ a).map fun t => t * t).sum *
          ((b.map fun t => t - meanQ b).map fun t => t * t).sum) ^ 2 =
          ((a.map fun t => t - meanQ a).map fun t => t * t).sum *
            ((b.map fun t => t - meanQ b).map fun t => t * t).sum := by
        rw [sq]
        exact hs
      have hS2 : (List.zipWith (· * ·) (a.map fun t => t - meanQ a)
          (b.map fun t => t - meanQ b)).sum ^ 2 ≤
          sqrtQ (((a.map fun t => t - meanQ a).map fun t => t * t).sum *
            ((b.map fun t => t - meanQ b).map fun t => t * t).sum) ^ 2 := by
        rw [hsq2]
        exact hcs
      rcases abs_cases ((List.zipWith (· * ·) (a.map fun t => t - meanQ a)
          (b.map fun t => t - meanQ b)).sum) with ⟨hc, _⟩ | ⟨hc, _⟩ <;>
        rcases abs_cases (sqrtQ (((a.map fun t => t - meanQ a).map fun t => t * t).sum *
          ((b.map fun t => t - meanQ b).map fun t => t * t).sum)) with ⟨hd, _⟩ | ⟨hd, _⟩ <;>
        nlinarith
  · rw [hs, div_zero]
    norm_num

/-- Claim C8: for every call that returns (any valid `N ≥ 2` falls in this
case) with `nsim > 0`, the returned surrogate correlation array has exactly
`nsim` elements, and every element lies in [-1, 1]. -/
theorem claim_C8_surrogate_array_shape (w : GQ) (σ : World) (x y : List ℚ)
    (level : ℚ) (nsim : ℤ) (seed : Option ℤ) (p : List ℚ) (res : EbResult)
    (hns : 0 < nsim)
    (h : (ebisuzaki w σ x y level nsim seed).2 = (p, .ok res)) :
    (res.rSim.length : ℤ) = nsim ∧ ∀ r ∈ res.rSim, -1 ≤ r ∧ r ≤ 1 := by
  have hcore : (ebisuzakiCore w (npSeedStream seed σ) x y level nsim).2 =
      (p, .ok res) := h
  obtain ⟨-, cols, cv, hcols, -, hrSim, -, -, -⟩ := ebisuzakiCore_ok_inv hcore
  constructor
  · rw [hrSim, List.length_map, collectE_ok_length _ hcols, List.length_range]
    exact Int.toNat_of_nonneg (le_of_lt hns)
  · intro r hr
    rw [hrSim] at hr
    rcases List.mem_map.mp hr with ⟨q, _, rfl⟩
    have := corrQ_abs_le_one (zscoreQ q.1) (zscoreQ q.2)
    exact abs_le.mp this

unseal Rat.inv Rat.mul Rat.add Rat.sub in
theorem claim_C8_surrogate_array_shape_witness :
    (0 : ℤ) < 1 ∧
      (((EbResult.mk 0 [-7/9] 1).rSim.length : ℤ) = 1 ∧
        ∀ r ∈ (EbResult.mk 0 [-7/9] 1).rSim, -1 ≤ r ∧ r ≤ 1) :=
  ⟨by norm_num,
    claim_C8_surrogate_array_shape w4 worldCex pythagVec pythagVec (1/2) 1 none
      [1, 7/9, 0] ⟨0, [-7/9], 1⟩ (by norm_num) (by decide)⟩

/-- Claim C4: on every call that returns, with `nsim > 0`, the returned
p-value `F` equals the fraction of the surrogate correlation coefficients
whose absolute value strictly exceeds `|r_real|` (ties do not count), and it
lies in [0, 1] inclusive. -/
theorem claim_C4_p_value_fraction (w : GQ) (σ : World) (x y : List ℚ)
    (level : ℚ) (nsim : ℤ) (seed : Option ℤ) (p : List ℚ) (res : EbResult)
    (hns : 0 < nsim)
    (h : (ebisuzaki w σ x y level nsim seed).2 = (p, .ok res)) :
    res.F = ((res.rSim.countP fun t => decide (|res.r_real| < |t|) : ℕ) : ℚ) /
        (nsim : ℚ) ∧
      0 ≤ res.F ∧ res.F ≤ 1 := by
  have hcore : (ebisuzakiCore w (npSeedStream seed σ) x y level nsim).2 =
      (p, .ok res) := h
  obtain ⟨-, cols, cv, hcols, -, hrSim, hF, -, -⟩ := ebisuzakiCore_ok_inv hcore
  have hlen : res.rSim.length = nsim.toNat := by
    rw [hrSim, List.length_map, collectE_ok_length _ hcols, List.length_range]
  have hnsq : (0 : ℚ) < (nsim : ℚ) := by exact_mod_cast hns
  refine ⟨hF, ?_, ?_⟩
  · rw [hF]
    positivity
  · rw [hF]
    rw [div_le_one hnsq]
    have hcount : (res.rSim.countP fun t => decide (|res.r_real| < |t|)) ≤
        res.rSim.length := List.countP_le_length _
    have : (res.rSim.countP fun t => decide (|res.r_real| < |t|)) ≤ nsim.toNat := by
      rw [← hlen]
      exact hcount
    calc ((res.rSim.countP fun t => decide (|res.r_real| < |t|) : ℕ) : ℚ) ≤
        ((nsim.toNat : ℕ) : ℚ) := by exact_mod_cast this
      _ = (nsim : ℚ) := by
        exact_mod_cast Int.toNat_of_nonneg (le_of_lt hns)

unseal Rat.inv Rat.mul Rat.add Rat.sub in
theorem claim_C4_p_value_fraction_witness :
    (0 : ℤ) < 1 ∧
      ((EbResult.mk 0 [1] 1).F =
          (((EbResult.mk 0 [1] 1).rSim.countP fun t =>
            decide (|(EbResult.mk 0 [1] 1).r_real| < |t|) : ℕ) : ℚ) / ((1 : ℤ) : ℚ) ∧
        0 ≤ (EbResult.mk 0 [1] 1).F ∧ (EbResult.mk 0 [1] 1).F ≤ 1) :=
  ⟨by norm_num,
    claim_C4_p_value_fraction w4 world1 [1, -1, 1, -1] [1, -1, 1, -1] (1/20) 1
      none [1, 1, 0] ⟨0, [1], 1⟩ (by norm_num) (by decide)⟩

/-! ## DFT inversion and Hermitian symmetry (for the spectral claim) -/

theorem GQ.ofQ_mul (a b : ℚ) : GQ.ofQ (a * b) = GQ.ofQ a * GQ.ofQ b := by
  ext <;> simp

theorem GQ.ofQ_add (a b : ℚ) : GQ.ofQ (a + b) = GQ.ofQ a + GQ.ofQ b := by
  ext <;> simp

theorem GQ.ofQ_natCast (n : ℕ) : GQ.ofQ (n : ℚ) = (n : GQ) := by
  induction n with
  | zero => ext <;> simp
  | succ n ih =>
    push_cast
    rw [GQ.ofQ_add, ih]
    ext <;> simp

theorem GQ.normSq_pow (z : GQ) (k : ℕ) : GQ.normSq (z ^ k) = GQ.normSq z ^ k := by
  induction k with
  | zero => simp [GQ.normSq]
  | succ k ih => rw [pow_succ, GQ.normSq_mul, ih, pow_succ]

theorem GQ.pow_ne_zero_of_normSq_one {w : GQ} (h : GQ.normSq w = 1) (k : ℕ) :
    w ^ k ≠ 0 := by
  intro h0
  have := congrArg GQ.normSq h0
  rw [GQ.normSq_pow, h, one_pow] at this
  simp [GQ.normSq] at this

theorem GQ.conj_pow_mul_pow {w : GQ} (h : GQ.normSq w = 1) (m : ℕ) :
    GQ.conj w ^ m * w ^ m = 1 := by
  rw [← mul_pow, GQ.conj_mul_self_of_normSq_one h, one_pow]

/-- Exponent symmetry: raising the root to the mirrored index `(n - m) % n`
is conjugation. -/
theorem w_pow_mirror {w : GQ} {n m : ℕ} (hw1 : w ^ n = 1)
    (hwu : GQ.normSq w = 1) (hm : m < n) (j : ℕ) :
    w ^ (j * ((n - m) % n)) = GQ.conj w ^ (j * m) := by
  rcases Nat.eq_zero_or_pos m with hm0 | hm0
  · subst hm0
    simp [Nat.mod_self]
  · have hlt : n - m < n := Nat.sub_lt (lt_of_le_of_lt (Nat.zero_le m) hm) hm0
    rw [Nat.mod_eq_of_lt hlt]
    apply mul_right_cancel₀ (GQ.pow_ne_zero_of_normSq_one hwu (j * m))
    rw [GQ.conj_pow_mul_pow hwu (j * m)]
    rw [← pow_add]
    have harith : j * (n - m) + j * m = j * n := by
      rw [← Nat.mul_add, Nat.sub_add_cancel (le_of_lt hm)]
    rw [harith, Nat.mul_comm j n, pow_mul, hw1, one_pow]

/-- Orthogonality of the DFT characters. -/
theorem dft_orthogonality {w : GQ} {n : ℕ} (hw1 : w ^ n = 1)
    (hw2 : ∀ m < n, 0 < m → w ^ m ≠ 1) (hwu : GQ.normSq w = 1)
    {a b : ℕ} (ha : a < n) (hb : b < n) :
    ∑ k in Finset.range n, (w ^ a * GQ.conj w ^ b) ^ k =
      if a = b then (n : GQ) else 0 := by
  by_cases hab : a = b
  · subst hab
    rw [if_pos rfl]
    have hu : w ^ a * GQ.conj w ^ a = 1 := by
      rw [← mul_pow, GQ.mul_conj_of_normSq_one hwu, one_pow]
    simp [hu]
  · rw [if_neg hab]
    set u := w ^ a * GQ.conj w ^ b with hu
    have hun : u ^ n = 1 := by
      rw [hu, mul_pow, ← pow_mul, ← pow_mul, Nat.mul_comm a n, Nat.mul_comm b n,
        pow_mul, pow_mul, hw1, ← GQ.conj_pow, hw1, GQ.conj_one, one_pow, one_pow,
        one_mul]
    have hu1 : u ≠ 1 := by
      intro h1
      have hab2 : w ^ a = w ^ b := by
        have := congrArg (fun z => z * w ^ b) h1
        simp only [one_mul] at this
        rw [mul_assoc, GQ.conj_pow_mul_pow hwu b, mul_one] at this
        exact this
      rcases lt_trichotomy a b with hlt | heq | hgt
      · have hdiff : w ^ (b - a) = 1 := by
          apply mul_right_cancel₀ (GQ.pow_ne_zero_of_normSq_one hwu a)
          rw [← pow_add, Nat.sub_add_cancel (le_of_lt hlt), one_mul]
          exact hab2.symm
        exact hw2 (b - a) (lt_of_le_of_lt (Nat.sub_le b a) hb)
          (Nat.sub_pos_of_lt hlt) hdiff
      · exact hab heq
      · have hdiff : w ^ (a - b) = 1 := by
          apply mul_right_cancel₀ (GQ.pow_ne_zero_of_normSq_one hwu b)
          rw [← pow_add, Nat.sub_add_cancel (le_of_lt hgt), one_mul]
          exact hab2
        exact hw2 (a - b) (lt_of_le_of_lt (Nat.sub_le a b) ha)
          (Nat.sub_pos_of_lt hgt) hdiff
    have hgeom := geom_sum_mul u n
    rw [hun, sub_self] at hgeom
    rcases mul_eq_zero.mp hgeom with hz | hz
    · exact hz
    · exact absurd (sub_eq_zero.mp hz) hu1

/-- Round trip: the forward DFT of the inverse DFT is the identity, given a
primitive root of unit norm. -/
theorem dft_idft {w : GQ} {S : List GQ} (hn : 0 < S.length)
    (hw1 : w ^ S.length = 1) (hw2 : ∀ m < S.length, 0 < m → w ^ m ≠ 1)
    (hwu : GQ.normSq w = 1) :
    dft w (idft w S) = S := by
  have hlen : (dft w (idft w S)).length = S.length := by simp
  apply List.ext_getElem hlen
  intro m hm1 hm2
  have hm : m < S.length := hm2
  have hmid : m < (idft w S).length := by simpa using hm
  have key : (dft w (idft w S)).getD m 0 = S.getD m 0 := by
    rw [dft_getD w (idft w S) hmid]
    rw [idft_length]
    have hstep1 : ∀ j ∈ Finset.range S.length,
        (idft w S).getD j 0 * w ^ (j * m) =
          GQ.ofQ (((S.length : ℚ))⁻¹) *
            ∑ k in Finset.range S.length,
              S.getD k 0 * (w ^ m * GQ.conj w ^ k) ^ j := by
      intro j hj
      rw [idft_getD w S (by simpa using Finset.mem_range.mp hj)]
      rw [mul_assoc, Finset.sum_mul]
      congr 1
      apply Finset.sum_congr rfl
      intro k _
      have hp1 : GQ.conj w ^ (j * k) = (GQ.conj w ^ k) ^ j := by
        rw [← pow_mul, Nat.mul_comm]
      have hp2 : w ^ (j * m) = (w ^ m) ^ j := by
        rw [← pow_mul, Nat.mul_comm]
      rw [hp1, hp2, mul_pow]
      ring
    rw [Finset.sum_congr rfl hstep1]
    rw [← Finset.mul_sum]
    rw [Finset.sum_comm]
    have hstep2 : ∀ k ∈ Finset.range S.length,
        (∑ j in Finset.range S.length,
          S.getD k 0 * (w ^ m * GQ.conj w ^ k) ^ j) =
          if m = k then S.getD k 0 * (S.length : GQ) else 0 := by
      intro k hk
      rw [← Finset.mul_sum]
      rw [dft_orthogonality hw1 hw2 hwu hm (Finset.mem_range.mp hk)]
      split
      · rfl
      · rw [mul_zero]
    rw [Finset.sum_congr rfl hstep2]
    rw [Finset.sum_ite_eq (Finset.range S.length) m
      (fun k => S.getD k 0 * (S.length : GQ))]
    rw [if_pos (Finset.mem_range.mpr hm)]
    rw [← GQ.ofQ_natCast, ← mul_assoc, mul_comm (GQ.ofQ (((S.length : ℚ))⁻¹))
      (S.getD m 0), mul_assoc, ← GQ.ofQ_mul]
    have hne : ((S.length : ℚ)) ≠ 0 := by
      exact_mod_cast Nat.pos_iff_ne_zero.mp hn
    rw [inv_mul_cancel₀ hne]
    have hone : GQ.ofQ 1 = 1 := by ext <;> simp
    rw [hone, mul_one]
  rw [List.getD_eq_getElem (dft w (idft w S)) 0 hm1] at key
  rw [List.getD_eq_getElem S 0 hm] at key
  exact key

/-- Conjugate (Hermitian) symmetry of a complex array: entry `(n - k) % n` is
the conjugate of entry `k`. -/
def conjSymmList (S : List GQ) : Prop :=
  ∀ k < S.length, S.getD ((S.length - k) % S.length) 0 = GQ.conj (S.getD k 0)

/-- Conjugation as an additive monoid homomorphism (for summing). -/
def conjHom : GQ →+ GQ where
  toFun := GQ.conj
  map_zero' := GQ.conj_zero
  map_add' := GQ.conj_add

theorem GQ.conj_sum {α : Type} (s : Finset α) (f : α → GQ) :
    GQ.conj (∑ i in s, f i) = ∑ i in s, GQ.conj (f i) :=
  map_sum conjHom f s

theorem mirror_involutive {n : ℕ} (hn : 0 < n) {k : ℕ} (hk : k < n) :
    (n - (n - k) % n) % n = k := by
  rcases Nat.eq_zero_or_pos k with hk0 | hk0
  · subst hk0
    simp [Nat.mod_self]
  · have h1 : (n - k) % n = n - k := Nat.mod_eq_of_lt (Nat.sub_lt hn hk0)
    rw [h1, Nat.sub_sub_self (le_of_lt hk), Nat.mod_eq_of_lt hk]

/-- The inverse DFT of a conjugate-symmetric spectrum is fixed by
conjugation (i.e. real). -/
theorem idft_conj_entry {w : GQ} {S : List GQ} (hn : 0 < S.length)
    (hw1 : w ^ S.length = 1) (hwu : GQ.normSq w = 1)
    (hsym : conjSymmList S) {j : ℕ} (hj : j < S.length) :
    GQ.conj ((idft w S).getD j 0) = (idft w S).getD j 0 := by
  rw [idft_getD w S hj]
  rw [GQ.conj_mul, GQ.conj_ofQ, GQ.conj_sum]
  congr 1
  have hterm : ∀ k ∈ Finset.range S.length,
      GQ.conj (S.getD k 0 * GQ.conj w ^ (j * k)) =
        S.getD ((S.length - k) % S.length) 0 * w ^ (j * k) := by
    intro k hk
    rw [GQ.conj_mul, GQ.conj_pow, GQ.conj_conj, hsym k (Finset.mem_range.mp hk)]
  rw [Finset.sum_congr rfl hterm]
  refine Finset.sum_nbij' (fun k => (S.length - k) % S.length)
    (fun k => (S.length - k) % S.length) ?_ ?_ ?_ ?_ ?_
  · intro a ha
    exact Finset.mem_range.mpr (Nat.mod_lt _ hn)
  · intro a ha
    exact Finset.mem_range.mpr (Nat.mod_lt _ hn)
  · intro a ha
    exact mirror_involutive hn (Finset.mem_range.mp ha)
  · intro a ha
    exact mirror_involutive hn (Finset.mem_range.mp ha)
  · intro a ha
    have hma : (S.length - a) % S.length < S.length := Nat.mod_lt _ hn
    have hw := w_pow_mirror hw1 hwu hma j
    rw [mirror_involutive hn (Finset.mem_range.mp ha)] at hw
    congr 1

theorem idft_im_zero_of_conjSymm {w : GQ} {S : List GQ} (hn : 0 < S.length)
    (hw1 : w ^ S.length = 1) (hwu : GQ.normSq w = 1)
    (hsym : conjSymmList S) {j : ℕ} (hj : j < S.length) :
    ((idft w S).getD j 0).im = 0 := by
  have h := idft_conj_entry hn hw1 hwu hsym hj
  have him := congrArg GQ.im h
  simp only [GQ.conj_im] at him
  linarith

/-- A complex list with vanishing imaginary parts is recovered from its real
parts. -/
theorem map_re_map_ofQ {l : List GQ} (h : ∀ j < l.length, (l.getD j 0).im = 0) :
    (l.map GQ.re).map GQ.ofQ = l := by
  apply List.ext_getElem (by simp)
  intro i h1 h2
  have him : l[i].im = 0 := by
    have := h i h2
    rwa [List.getD_eq_getElem l 0 h2] at this
  simp only [List.getElem_map]
  ext
  · simp
  · simp [him]

/-- The DFT of a real-valued list is conjugate-symmetric (for a root of unit
norm). -/
theorem dft_real_conjSymm {w : GQ} (x : List ℚ)
    (hw1 : w ^ x.length = 1) (hwu : GQ.normSq w = 1) :
    conjSymmList (dft w (x.map GQ.ofQ)) := by
  intro k hk
  rw [dft_length, List.length_map] at hk
  have hlen : (dft w (x.map GQ.ofQ)).length = x.length := by simp
  rw [hlen]
  have hmod : (x.length - k) % x.length < (x.map GQ.ofQ).length := by
    rw [List.length_map]
    exact Nat.mod_lt _ (lt_of_le_of_lt (Nat.zero_le k) hk)
  have hkml : k < (x.map GQ.ofQ).length := by
    rw [List.length_map]; exact hk
  rw [dft_getD w (x.map GQ.ofQ) (by simpa using hmod),
    dft_getD w (x.map GQ.ofQ) hkml]
  rw [GQ.conj_sum]
  rw [List.length_map]
  apply Finset.sum_congr rfl
  intro j hj
  have hjx : j < x.length := Finset.mem_range.mp hj
  have hreal : (x.map GQ.ofQ).getD j 0 = GQ.ofQ (x.getD j 0) := by
    rw [List.getD_eq_getElem _ 0 (by simpa using hjx),
      List.getElem_map, List.getD_eq_getElem _ 0 hjx]
  rw [hreal, GQ.conj_mul, GQ.conj_ofQ, GQ.conj_pow]
  congr 1
  exact w_pow_mirror hw1 hwu hk j

/-- The magnitude array of the DFT of a real list is mirror-symmetric. -/
theorem dft_real_mod_symm {w : GQ} (x : List ℚ)
    (hw1 : w ^ x.length = 1) (hwu : GQ.normSq w = 1) {k : ℕ} (hk : k < x.length) :
    ((dft w (x.map GQ.ofQ)).map magQ).getD ((x.length - k) % x.length) 0 =
      ((dft w (x.map GQ.ofQ)).map magQ).getD k 0 := by
  have hlen : (dft w (x.map GQ.ofQ)).length = x.length := by simp
  have hmod : (x.length - k) % x.length < x.length :=
    Nat.mod_lt _ (lt_of_le_of_lt (Nat.zero_le k) hk)
  have h1 : ((dft w (x.map GQ.ofQ)).map magQ).getD ((x.length - k) % x.length) 0 =
      magQ ((dft w (x.map GQ.ofQ)).getD ((x.length - k) % x.length) 0) := by
    rw [List.getD_eq_getElem _ 0 (by simp [hlen, hmod]),
      List.getElem_map, List.getD_eq_getElem _ 0 (by simp [hlen, hmod])]
  have h2 : ((dft w (x.map GQ.ofQ)).map magQ).getD k 0 =
      magQ ((dft w (x.map GQ.ofQ)).getD k 0) := by
    rw [List.getD_eq_getElem _ 0 (by simp [hlen, hk]),
      List.getElem_map, List.getD_eq_getElem _ 0 (by simp [hlen, hk])]
  rw [h1, h2]
  have hsym := dft_real_conjSymm x hw1 hwu k (by simpa [hlen] using hk)
  rw [hlen] at hsym
  rw [hsym, magQ_conj]

theorem cisFull_even_length {n : ℕ} {zs : List GQ} (h2 : 2 ≤ n)
    (heven : n % 2 = 0) (hz : zs.length = n / 2 - 1) :
    (cisFull n zs).length = n := by
  unfold cisFull
  rw [if_pos heven]
  simp only [List.length_append, List.length_cons, List.length_nil,
    List.length_map, List.length_reverse, hz]
  omega

/-- Entrywise description of the even-length symmetric phase-factor array:
`1` at bin 0, the free factors at bins `1 .. n/2 - 1`, `1` at the Nyquist bin
`n/2`, and the conjugated mirror at bins `n/2 + 1 .. n - 1`. -/
theorem cisFull_even_getD {n : ℕ} {zs : List GQ} (h2 : 2 ≤ n)
    (heven : n % 2 = 0) (hz : zs.length = n / 2 - 1) {k : ℕ} (hk : k < n) :
    (cisFull n zs).getD k 0 =
      if k = 0 then 1
      else if k < n / 2 then zs.getD (k - 1) 0
      else if k = n / 2 then 1
      else GQ.conj (zs.getD (n - k - 1) 0) := by
  unfold cisFull
  rw [if_pos heven]
  rcases Nat.eq_zero_or_pos k with hk0 | hk0
  · subst hk0
    simp
  · obtain ⟨j, rfl⟩ : ∃ j, k = j + 1 := ⟨k - 1, by omega⟩
    rw [if_neg (by omega)]
    have hstep : ([1] ++ (zs ++ ([1] ++ zs.reverse.map GQ.conj))).getD (j + 1) 0 =
        (zs ++ ([1] ++ zs.reverse.map GQ.conj)).getD j 0 := by
      rw [List.getD_append_right [1] _ 0 (j + 1) (by simp)]
      simp
    rw [List.append_assoc, List.append_assoc] at *
    rw [hstep]
    by_cases hj1 : j < zs.length
    · rw [List.getD_append zs _ 0 j hj1]
      rw [if_pos (by omega)]
      simp
    · rw [List.getD_append_right zs _ 0 j (by omega)]
      by_cases hj2 : j = zs.length
      · subst hj2
        rw [if_neg (by omega), if_pos (by omega)]
        simp
      · rw [if_neg (by omega), if_neg (by omega)]
        have hsub : j - zs.length = (j - zs.length - 1) + 1 := by omega
        rw [hsub, List.singleton_append, List.getD_cons_succ]
        have hin : j - zs.length - 1 < (zs.reverse.map GQ.conj).length := by
          simp only [List.length_map, List.length_reverse]
          omega
        rw [List.getD_eq_getElem _ 0 hin, List.getElem_map,
          List.getElem_reverse]
        have hidx : n - (j + 1) - 1 = zs.length - 1 - (j - zs.length - 1) := by
          have hc : (zs.reverse.map GQ.conj).length = zs.length := by simp
          omega
        rw [hidx, List.getD_eq_getElem _ 0
          (show zs.length - 1 - (j - zs.length - 1) < zs.length by
            have hc : (zs.reverse.map GQ.conj).length = zs.length := by simp
            omega)]

theorem cisFull_even_conjSymm {n : ℕ} {zs : List GQ} (h2 : 2 ≤ n)
    (heven : n % 2 = 0) (hz : zs.length = n / 2 - 1) :
    conjSymmList (cisFull n zs) := by
  intro k hk
  rw [cisFull_even_length h2 heven hz] at hk ⊢
  rcases Nat.eq_zero_or_pos k with rfl | hk0
  · rw [Nat.sub_zero, Nat.mod_self]
    rw [cisFull_even_getD h2 heven hz (by omega : 0 < n)]
    simp
  · have hnk : (n - k) % n = n - k := Nat.mod_eq_of_lt (by omega)
    rw [hnk]
    rw [cisFull_even_getD h2 heven hz (show n - k < n by omega),
      cisFull_even_getD h2 heven hz hk]
    by_cases hklt : k < n / 2
    · rw [if_neg (by omega), if_neg (by omega), if_neg (by omega)]
      rw [if_neg (by omega), if_pos hklt]
      have hidx : n - (n - k) - 1 = k - 1 := by omega
      rw [hidx]
    · by_cases hkeq : k = n / 2
      · rw [if_neg (by omega), if_neg (by omega), if_pos (by omega)]
        rw [if_neg (by omega), if_neg (by omega), if_pos hkeq]
        simp
      · rw [if_neg (by omega), if_pos (by omega)]
        rw [if_neg (by omega), if_neg (by omega), if_neg (by omega),
          GQ.conj_conj]

theorem cisFull_even_normSq_one {n : ℕ} {zs : List GQ} (h2 : 2 ≤ n)
    (heven : n % 2 = 0) (hz : zs.length = n / 2 - 1)
    (hu : ∀ z ∈ zs, GQ.normSq z = 1) :
    ∀ k < n, GQ.normSq ((cisFull n zs).getD k 0) = 1 := by
  intro k hk
  rw [cisFull_even_getD h2 heven hz hk]
  split
  · simp [GQ.normSq]
  · split
    · have hkb : k - 1 < zs.length := by omega
      rw [List.getD_eq_getElem _ 0 hkb]
      exact hu _ (List.getElem_mem hkb)
    · split
      · simp [GQ.normSq]
      · have hnb : n - k - 1 < zs.length := by omega
        rw [GQ.normSq_conj, List.getD_eq_getElem _ 0 hnb]
        exact hu _ (List.getElem_mem hnb)

theorem zip_spectrum_getD {mod : List ℚ} {cis : List GQ}
    (hlen : mod.length = cis.length) {k : ℕ} (hk : k < mod.length) :
    (List.zipWith (fun m z => GQ.ofQ m * z) mod cis).getD k 0 =
      GQ.ofQ (mod.getD k 0) * cis.getD k 0 := by
  have hkc : k < cis.length := hlen ▸ hk
  have hkz : k < (List.zipWith (fun m z => GQ.ofQ m * z) mod cis).length := by
    rw [List.length_zipWith]
    omega
  rw [List.getD_eq_getElem _ 0 hkz, List.getElem_zipWith,
    List.getD_eq_getElem _ 0 hk, List.getD_eq_getElem _ 0 hkc]

theorem zip_spectrum_conjSymm {mod : List ℚ} {cis : List GQ}
    (hlen : mod.length = cis.length)
    (hmod : ∀ k < mod.length,
      mod.getD ((mod.length - k) % mod.length) 0 = mod.getD k 0)
    (hcis : conjSymmList cis) :
    conjSymmList (List.zipWith (fun m z => GQ.ofQ m * z) mod cis) := by
  intro k hk
  have hzlen : (List.zipWith (fun m z => GQ.ofQ m * z) mod cis).length =
      mod.length := by
    rw [List.length_zipWith]
    omega
  rw [hzlen] at hk ⊢
  have hmk : (mod.length - k) % mod.length < mod.length :=
    Nat.mod_lt _ (by omega)
  rw [zip_spectrum_getD hlen hmk, zip_spectrum_getD hlen hk]
  rw [hmod k hk]
  have hcis2 := hcis k (by omega)
  rw [hlen]
  rw [hcis2, GQ.conj_mul, GQ.conj_ofQ]

theorem map_magQ_getD_nonneg (l : List GQ) {k : ℕ} (hk : k < l.length) :
    0 ≤ (l.map magQ).getD k 0 := by
  rw [List.getD_eq_getElem _ 0 (by simpa using hk), List.getElem_map]
  exact magQ_nonneg _

theorem zip_spectrum_mag {mod : List ℚ} {cis : List GQ}
    (hlen : mod.length = cis.length)
    (hmodnn : ∀ k < mod.length, 0 ≤ mod.getD k 0)
    (hunit : ∀ k < cis.length, GQ.normSq (cis.getD k 0) = 1) :
    (List.zipWith (fun m z => GQ.ofQ m * z) mod cis).map magQ = mod := by
  have hzlen : (List.zipWith (fun m z => GQ.ofQ m * z) mod cis).length =
      mod.length := by
    rw [List.length_zipWith]
    omega
  apply List.ext_getElem (by simpa using hzlen)
  intro i h1 h2
  rw [List.getElem_map]
  have hiz : i < (List.zipWith (fun m z => GQ.ofQ m * z) mod cis).length := by
    simpa using h1
  rw [← List.getD_eq_getElem _ (0 : GQ) hiz, ← List.getD_eq_getElem _ (0 : ℚ) h2]
  rw [zip_spectrum_getD hlen h2]
  rw [magQ_ofQ_mul_unit _ (hunit i (hlen ▸ h2))]
  exact abs_of_nonneg (hmodnn i h2)

/-- The engine: the magnitude array of the DFT of the real part of the
inverse DFT of a conjugate-symmetric spectrum equals the magnitude array of
the spectrum itself — exact round trip. -/
theorem spectrum_roundtrip {w : GQ} {S : List GQ} (hn : 0 < S.length)
    (hw1 : w ^ S.length = 1) (hw2 : ∀ m < S.length, 0 < m → w ^ m ≠ 1)
    (hwu : GQ.normSq w = 1) (hsym : conjSymmList S) :
    (dft w (((idft w S).map GQ.re).map GQ.ofQ)).map magQ = S.map magQ := by
  have hreal : ∀ j < (idft w S).length, ((idft w S).getD j 0).im = 0 := by
    intro j hj
    exact idft_im_zero_of_conjSymm hn hw1 hwu hsym (by simpa using hj)
  rw [map_re_map_ofQ hreal, dft_idft hn hw1 hw2 hwu]

theorem map_ofQ_getD {mod : List ℚ} {k : ℕ} (hk : k < mod.length) :
    (mod.map GQ.ofQ).getD k 0 = GQ.ofQ (mod.getD k 0) := by
  rw [List.getD_eq_getElem _ 0 (by simpa using hk), List.getElem_map,
    List.getD_eq_getElem _ 0 hk]

theorem map_ofQ_conjSymm {mod : List ℚ}
    (hmod : ∀ k < mod.length,
      mod.getD ((mod.length - k) % mod.length) 0 = mod.getD k 0) :
    conjSymmList (mod.map GQ.ofQ) := by
  intro k hk
  rw [List.length_map] at hk ⊢
  rcases Nat.eq_zero_or_pos mod.length with hl0 | hl0
  · omega
  · have hmk : (mod.length - k) % mod.length < mod.length := Nat.mod_lt _ hl0
    rw [map_ofQ_getD hmk, map_ofQ_getD hk, hmod k hk, GQ.conj_ofQ]

theorem magQ_ofQ (a : ℚ) : magQ (GQ.ofQ a) = |a| := by
  have h := magQ_ofQ_mul_unit a (z := 1) (by simp [GQ.normSq])
  rwa [mul_one] at h

theorem map_ofQ_mag {mod : List ℚ} (hnn : ∀ k < mod.length, 0 ≤ mod.getD k 0) :
    (mod.map GQ.ofQ).map magQ = mod := by
  apply List.ext_getElem (by simp)
  intro i h1 h2
  rw [List.getElem_map, List.getElem_map]
  rw [← List.getD_eq_getElem mod (0 : ℚ) h2]
  rw [magQ_ofQ]
  exact abs_of_nonneg (hnn i h2)

/-- Claim C6: every surrogate series actually generated by a valid call
preserves the amplitude spectrum exactly: the magnitude of the DFT of the
surrogate produced by the loop body (`surrogateColumn`, fed with the
magnitude array of the standardized original and unit phase factors) equals
the magnitude of the DFT of the standardized original.  The even lengths
cover every `N ≥ 2` for which the parity branch is correct; `N = 3` is the
only odd length that still generates surrogates (degenerate broadcast), and
they too preserve the spectrum; odd `N ≥ 5` generates none (see the C1 code
bug).  Exactness is stronger than the claimed floating-point tolerance. -/
theorem claim_C6_surrogate_magnitude_preserved (w : GQ) (x' : List ℚ)
    (zs : List GQ) (hn2 : 2 ≤ x'.length)
    (hpar : x'.length % 2 = 0 ∨ x'.length = 3)
    (hzs : zs.length = x'.length / 2 - 1) (hzu : ∀ z ∈ zs, GQ.normSq z = 1)
    (hw1 : w ^ x'.length = 1) (hw2 : ∀ m < x'.length, 0 < m → w ^ m ≠ 1)
    (hwu : GQ.normSq w = 1) :
    ∃ s, surrogateColumn w x'.length ((dft w (x'.map GQ.ofQ)).map magQ) zs =
        .ok s ∧
      (dft w (s.map GQ.ofQ)).map magQ = (dft w (x'.map GQ.ofQ)).map magQ := by
  set mod := (dft w (x'.map GQ.ofQ)).map magQ with hmoddef
  have hmodlen : mod.length = x'.length := by simp [hmoddef]
  have hmodsym : ∀ k < mod.length,
      mod.getD ((mod.length - k) % mod.length) 0 = mod.getD k 0 := by
    intro k hk
    rw [hmodlen] at hk ⊢
    exact dft_real_mod_symm x' hw1 hwu hk
  have hmodnn : ∀ k < mod.length, 0 ≤ mod.getD k 0 := by
    intro k hk
    apply map_magQ_getD_nonneg
    simpa [hmoddef] using hk
  rcases hpar with heven | h3
  · have hcl : (cisFull x'.length zs).length = x'.length :=
      cisFull_even_length hn2 heven hzs
    have hbl : mod.length = (cisFull x'.length zs).length := by
      rw [hmodlen, hcl]
    have hbm : broadcastMul mod (cisFull x'.length zs) =
        .ok (List.zipWith (fun m z => GQ.ofQ m * z) mod
          (cisFull x'.length zs)) := by
      unfold broadcastMul
      rw [if_pos hbl]
    refine ⟨(idft w (List.zipWith (fun m z => GQ.ofQ m * z) mod
      (cisFull x'.length zs))).map GQ.re, ?_, ?_⟩
    · unfold surrogateColumn
      rw [hbm]
      rfl
    · have hSlen : (List.zipWith (fun m z => GQ.ofQ m * z) mod
          (cisFull x'.length zs)).length = x'.length := by
        rw [List.length_zipWith, hmodlen, hcl]
        omega
      have h0 : 0 < (List.zipWith (fun m z => GQ.ofQ m * z) mod
          (cisFull x'.length zs)).length := by omega
      have hw1S : w ^ (List.zipWith (fun m z => GQ.ofQ m * z) mod
          (cisFull x'.length zs)).length = 1 := by rw [hSlen]; exact hw1
      have hw2S : ∀ m < (List.zipWith (fun m z => GQ.ofQ m * z) mod
          (cisFull x'.length zs)).length, 0 < m → w ^ m ≠ 1 :=
        fun m hm => hw2 m (hSlen ▸ hm)
      have hSsym : conjSymmList (List.zipWith (fun m z => GQ.ofQ m * z) mod
          (cisFull x'.length zs)) :=
        zip_spectrum_conjSymm hbl hmodsym (cisFull_even_conjSymm hn2 heven hzs)
      rw [spectrum_roundtrip h0 hw1S hw2S hwu hSsym]
      apply zip_spectrum_mag hbl hmodnn
      intro k hk
      exact cisFull_even_normSq_one hn2 heven hzs hzu k (hcl ▸ hk)
  · have hz0 : zs = [] := by
      apply List.eq_nil_of_length_eq_zero
      omega
    subst hz0
    have hc3 : cisFull x'.length [] = [1] := by
      unfold cisFull
      rw [if_neg (by omega)]
      rfl
    have hbm : broadcastMul mod (cisFull x'.length []) =
        .ok (mod.map GQ.ofQ) := by
      rw [hc3]
      unfold broadcastMul
      rw [if_neg (by rw [hmodlen]; simp [h3]),
        if_pos (show ([1] : List GQ).length = 1 from rfl)]
      congr 1
      apply List.map_congr_left
      intro m _
      show GQ.ofQ m * 1 = GQ.ofQ m
      rw [mul_one]
    refine ⟨(idft w (mod.map GQ.ofQ)).map GQ.re, ?_, ?_⟩
    · unfold surrogateColumn
      rw [hbm]
      rfl
    · have hSlen : (mod.map GQ.ofQ).length = x'.length := by
        rw [List.length_map, hmodlen]
      have h0 : 0 < (mod.map GQ.ofQ).length := by omega
      have hw1S : w ^ (mod.map GQ.ofQ).length = 1 := by rw [hSlen]; exact hw1
      have hw2S : ∀ m < (mod.map GQ.ofQ).length, 0 < m → w ^ m ≠ 1 :=
        fun m hm => hw2 m (hSlen ▸ hm)
      have hSsym : conjSymmList (mod.map GQ.ofQ) := map_ofQ_conjSymm hmodsym
      rw [spectrum_roundtrip h0 hw1S hw2S hwu hSsym]
      exact map_ofQ_mag hmodnn

unseal Rat.inv Rat.mul Rat.add Rat.sub in
theorem claim_C6_surrogate_magnitude_preserved_witness :
    (2 ≤ pythagVec.length ∧ pythagVec.length % 2 = 0) ∧
      ∃ s, surrogateColumn w4 pythagVec.length
          ((dft w4 (pythagVec.map GQ.ofQ)).map magQ) [⟨3/5, 4/5⟩] = .ok s ∧
        (dft w4 (s.map GQ.ofQ)).map magQ =
          (dft w4 (pythagVec.map GQ.ofQ)).map magQ :=
  ⟨⟨by decide, by decide⟩,
    claim_C6_surrogate_magnitude_preserved w4 pythagVec [⟨3/5, 4/5⟩]
      (by decide) (Or.inl (by decide)) (by decide) (by decide)
      (by decide) (by decide) (by decide)⟩

/-! ## Zero-variance (constant) input: the call returns normally

Under numpy's default error state — which the source never alters (there is
no `np.seterr` / `np.errstate` anywhere in the repository) — the division by
zero that standardization performs on a constant series produces NaN with
only a `RuntimeWarning`: no exception is raised, the NaN values flow through
the pipeline, and the call returns a normal result.  In the exact-rational
embedding those NaN payloads are idealized as `0` by the division-by-zero
convention; the control-flow fact — the call completes and returns `.ok` —
is faithful. -/

theorem collectE_ok_of_forall {α β : Type} (f : α → Except Err β) :
    ∀ (l : List α), (∀ a ∈ l, ∃ b, f a = .ok b) → ∃ r, collectE f l = .ok r := by
  intro l
  induction l with
  | nil => intro _; exact ⟨[], rfl⟩
  | cons a as ih =>
    intro h
    obtain ⟨b, hb⟩ := h a (List.mem_cons_self a as)
    obtain ⟨r, hr⟩ := ih fun x hx => h x (List.mem_cons_of_mem a hx)
    refine ⟨b :: r, ?_⟩
    simp only [collectE, bind, Except.bind, hb, hr, pure, Except.pure]

theorem surrogateColumn_even_ok (w : GQ) {n : ℕ} (mod : List ℚ) (zs : List GQ)
    (h2 : 2 ≤ n) (heven : n % 2 = 0) (hm : mod.length = n)
    (hz : zs.length = n / 2 - 1) :
    ∃ s, surrogateColumn w n mod zs = .ok s := by
  unfold surrogateColumn broadcastMul
  rw [if_pos (by rw [hm, cisFull_even_length h2 heven hz])]
  exact ⟨_, rfl⟩

theorem drawPair_even_ok (w : GQ) (st : ℕ → GQ) {n : ℕ} (modx mody : List ℚ)
    (i : ℕ) (h2 : 2 ≤ n) (heven : n % 2 = 0) (hmx : modx.length = n)
    (hmy : mody.length = n) :
    ∃ p, drawPair w st n (n / 2) modx mody i = .ok p := by
  unfold drawPair
  rw [if_neg (by omega : ¬ n / 2 = 0)]
  obtain ⟨sx, hsx⟩ := surrogateColumn_even_ok w modx
    ((List.range (n / 2 - 1)).map fun j => st (2 * (n / 2 - 1) * i + j))
    h2 heven hmx (by simp)
  obtain ⟨sy, hsy⟩ := surrogateColumn_even_ok w mody
    ((List.range (n / 2 - 1)).map fun j =>
      st (2 * (n / 2 - 1) * i + (n / 2 - 1) + j))
    h2 heven hmy (by simp)
  refine ⟨(sx, sy), ?_⟩
  simp only [bind, Except.bind, hsx, hsy, pure, Except.pure]

theorem pyIndex_sorted_ok {rs : List ℚ} {level : ℚ} {nsim : ℤ}
    (hlen : rs.length = nsim.toNat) (hns : 0 < nsim) (hl0 : 0 < level)
    (hl1 : level < 1) :
    ∃ cv, pyIndex (sortAsc (rs.map fun t => |t|))
      (pyInt ((nsim : ℚ) * (1 - level))) = .ok cv := by
  have hnsq : (0 : ℚ) < (nsim : ℚ) := by exact_mod_cast hns
  have harg : (0 : ℚ) ≤ (nsim : ℚ) * (1 - level) := by
    have : (0 : ℚ) ≤ 1 - level := by linarith
    positivity
  have hidx0 : 0 ≤ ⌊(nsim : ℚ) * (1 - level)⌋ := Int.floor_nonneg.mpr harg
  have hsortlen : (sortAsc (rs.map fun t => |t|)).length = nsim.toNat := by
    unfold sortAsc
    rw [List.length_insertionSort, List.length_map, hlen]
  have hidxlt : ⌊(nsim : ℚ) * (1 - level)⌋ <
      ((sortAsc (rs.map fun t => |t|)).length : ℤ) := by
    rw [hsortlen]
    have hlt : (nsim : ℚ) * (1 - level) < (nsim : ℚ) := by nlinarith
    have h2 : ⌊(nsim : ℚ) * (1 - level)⌋ < nsim := by
      rw [Int.floor_lt]
      exact_mod_cast hlt
    rwa [Int.toNat_of_nonneg (le_of_lt hns)]
  rw [pyInt_of_nonneg harg]
  exact ⟨_, pyIndex_ok hidx0 hidxlt⟩

/-- Claim C9 (amended): zero-variance input is silently handled, not an
error.  For every constant-everywhere input series (of even length at least
2, with valid `nsim` and `level`), the call does not fail: the division by
zero arising in standardization does not propagate as an error — under
numpy's default, repository-unmodified error state it only emits NaN with a
warning — and the function returns a normal result. -/
theorem claim_C9_zero_variance_returns_normally (w : GQ) (σ : World) (c : ℚ)
    (n : ℕ) (level : ℚ) (nsim : ℤ) (seed : Option ℤ) (h2 : 2 ≤ n)
    (heven : n % 2 = 0) (hns : 0 < nsim) (hl0 : 0 < level) (hl1 : level < 1) :
    ∃ p res, (ebisuzaki w σ (List.replicate n c) (List.replicate n c)
      level nsim seed).2 = (p, .ok res) := by
  show ∃ p res, (ebisuzakiCore w (npSeedStream seed σ) (List.replicate n c)
    (List.replicate n c) level nsim).2 = (p, .ok res)
  simp only [ebisuzakiCore, zscoreQ_length, List.length_replicate]
  rw [if_neg (by simp)]
  rw [if_neg (not_lt.mpr (le_of_lt hns))]
  split
  · next e heq =>
    exfalso
    obtain ⟨r, hok⟩ := collectE_ok_of_forall
      (drawPair w (npSeedStream seed σ) n (n / 2)
        ((dft w ((zscoreQ (List.replicate n c)).map GQ.ofQ)).map magQ)
        ((dft w ((zscoreQ (List.replicate n c)).map GQ.ofQ)).map magQ))
      (List.range nsim.toNat)
      fun i _ => drawPair_even_ok w (npSeedStream seed σ) _ _ i h2 heven
        (by simp) (by simp)
    rw [hok] at heq
    simp at heq
  · next cols hcols =>
    split
    · next e hperr =>
      exfalso
      have hlen : (cols.map fun q =>
          corrQ (zscoreQ q.1) (zscoreQ q.2)).length = nsim.toNat := by
        rw [List.length_map, collectE_ok_length _ hcols, List.length_range]
      obtain ⟨cv, hcv⟩ := pyIndex_sorted_ok hlen hns hl0 hl1
      rw [hcv] at hperr
      simp at hperr
    · next cv hcv =>
      exact ⟨_, _, rfl⟩

unseal Rat.inv Rat.mul Rat.add Rat.sub in
/-- Claim C9 counterexample: a concrete constant (zero-variance) input for
which the call returns a normal result — printed values `[0, 0, 0]` and the
returned triple `F = 0`, `rSim = [0]`, `r_real = 0` (the idealization of the
NaN-filled result numpy returns) — refuting "a division-by-zero error
propagates to the caller rather than the function returning a normal
result". -/
theorem claim_C9_zero_variance_counterexample :
    (ebisuzaki w4 world1 [5, 5, 5, 5] [5, 5, 5, 5] (1/20) 1 none).2 =
      ([0, 0, 0], .ok ⟨0, [0], 0⟩) := by
  decide

theorem claim_C9_zero_variance_returns_normally_witness :
    ((2 ≤ 4 ∧ 4 % 2 = 0) ∧ (0 : ℤ) < 1 ∧ (0 : ℚ) < 1/20 ∧ (1 : ℚ)/20 < 1) ∧
      ∃ p res, (ebisuzaki w4 world1 (List.replicate 4 (5 : ℚ))
        (List.replicate 4 (5 : ℚ)) (1/20) 1 none).2 = (p, .ok res) :=
  ⟨⟨⟨by norm_num, by norm_num⟩, by norm_num, by norm_num, by norm_num⟩,
    claim_C9_zero_variance_returns_normally w4 world1 5 4 (1/20) 1 none
      (by norm_num) (by norm_num) (by norm_num) (by norm_num) (by norm_num)⟩
